import Mathlib

set_option maxHeartbeats 1000000

/-!
Shallow embedding of the `pwned_pwd` repository (Rust) for checking its
natural-language specification.

Naming note: the Rust type `Prefix` and the record fields named `prefix`
are rendered here as `Pfx`/`pfx`; every other name follows the source.
Rust `u32` values are modelled as `Nat` with an explicit `% 2^32` at the
points where the source performs machine arithmetic that can wrap.
-/

/-- `Prefix::MAX_PREFIX` (`src/pwned_pwd/src/prefix.rs`). -/
def pfxMaxVal : Nat := 0xFFFFF

/-- `Prefix::create(v)`: `None` when the value is outside the 20-bit range. -/
def pfxCreate (v : Nat) : Option Nat :=
  if v > pfxMaxVal then none else some v

/-- `Prefix::forward(v)`: `Self::create(self.0 + v)`; the `u32` addition wraps
modulo `2^32` (release-profile semantics of Rust integer overflow). -/
def pfxForward (p v : Nat) : Option Nat :=
  pfxCreate ((p + v) % 4294967296)

/-- `impl Add<u32> for Prefix`: `Prefix::create(self.0 + rhs)`, the same body
as `forward`. -/
def pfxAdd (p v : Nat) : Option Nat :=
  pfxCreate ((p + v) % 4294967296)

/-- `Prefix::next()`: `self.forward(1)`. -/
def pfxNext (p : Nat) : Option Nat :=
  pfxForward p 1

/-- `Prefix::max()`. -/
def pfxMax : Nat := pfxMaxVal

/-- `Prefix::count()` exactly as the source writes it: it returns
`Self::MAX_PREFIX`. -/
def pfxCount : Nat := pfxMaxVal

/-- One step of `PrefixIterator::next` starting from `p`: the iterator yields
`p` and continues from `p.next()`.  `pfxListGo fuel p` is the list of yielded
prefixes, with enough fuel to reach the maximum prefix. -/
def pfxListGo : Nat → Nat → List Nat
  | 0, p => [p]
  | fuel + 1, p =>
    match pfxNext p with
    | some q => p :: pfxListGo fuel q
    | none => [p]

/-- The full sequence yielded by `PrefixIterator` starting at `p`
(`impl Iterator for PrefixIterator`). -/
def pfxList (p : Nat) : List Nat :=
  pfxListGo (pfxMaxVal + 1) p

/-- `Prefix::write_prefix`: the three bytes `(self.0 << 4).to_be_bytes()[1..]`
of the 32-bit big-endian representation of the prefix shifted left by 4. -/
def writePfx (p : Nat) : List Nat :=
  [p * 16 % 4294967296 / 65536 % 256,
   p * 16 % 4294967296 / 256 % 256,
   p * 16 % 4294967296 % 256]

/-- `PwnedPwd`: a 20-byte sha1 (modelled as a byte list) and a count. -/
structure PwnedPwd where
  sha1 : List Nat
  count : Nat
deriving DecidableEq, Repr

/-- `Chunk`: one prefix's worth of records.  Field `pfx` models the Rust
field `prefix`. -/
structure Chunk where
  pfx : Nat
  passwords : List PwnedPwd
deriving DecidableEq, Repr

/-- `ParseError` (payloads of the hex / int errors are dropped; no claim
inspects them). -/
inductive ParseError where
  | fromHexError
  | parseIntError
  | invalidStringLength
  | invalidString
deriving DecidableEq, Repr

/-- `fn val(char, idx)` in `parser.rs` (also the table used by
`hex::decode_to_slice`): the value of one ASCII hex digit. -/
def hexVal (c : Nat) : Option Nat :=
  if 65 ≤ c ∧ c ≤ 70 then some (c - 65 + 10)
  else if 97 ≤ c ∧ c ≤ 102 then some (c - 97 + 10)
  else if 48 ≤ c ∧ c ≤ 57 then some (c - 48)
  else none

/-- `hexVal` with default, used to state what a successful decode returns. -/
def hexValD (c : Nat) : Nat := (hexVal c).getD 0

/-- `hex::decode_to_slice` on a byte slice: consumes hex digits two at a
time, producing one byte `hi * 16 + lo` per pair; fails on a non-hex byte or
an odd-length input. -/
def decodeHex : List Nat → Option (List Nat)
  | [] => some []
  | [_] => none
  | a :: b :: t =>
    match hexVal a, hexVal b, decodeHex t with
    | some hi, some lo, some rest => some ((hi * 16 + lo) :: rest)
    | _, _, _ => none

/-- `true` iff the byte is an ASCII decimal digit. -/
def isDigit (c : Nat) : Bool := decide (48 ≤ c ∧ c ≤ 57)

/-- Numeric value of a list of ASCII digit bytes. -/
def digitsToNat (ds : List Nat) : Nat :=
  ds.foldl (fun acc c => acc * 10 + (c - 48)) 0

/-- `str::parse::<u32>` on a byte slice: an optional leading `+`, then at
least one digit, and the value must fit in a `u32` (Rust fails on the first
overflowing step; for decimal input that is equivalent to the final value
being `≥ 2^32`). -/
def parseU32 (s : List Nat) : Option Nat :=
  let ds := match s with
    | 43 :: t => t
    | _ => s
  if ds.isEmpty then none
  else if ds.all isDigit then
    if digitsToNat ds < 4294967296 then some (digitsToNat ds) else none
  else none

/-- `Parser::parse` (`src/pwned_pwd/src/parser.rs`): reject short lines,
require `:` at byte 35, fill the first three sha1 bytes from the prefix,
`|=` the low nibble of byte 2 with the first hex character, hex-decode
bytes 1..35 into sha1 bytes 3..20, and parse the decimal tail. -/
def Parser.parse (p : Nat) (line : List Nat) : Except ParseError PwnedPwd :=
  if line.length < 37 then .error .invalidStringLength
  else if line.getD 35 0 ≠ 58 then .error .invalidString
  else
    match hexVal (line.getD 0 0), decodeHex ((line.drop 1).take 34),
        parseU32 (line.drop 36) with
    | some v0, some tail, some cnt =>
      let pre := writePfx p
      .ok ⟨[pre.getD 0 0, pre.getD 1 0, Nat.lor (pre.getD 2 0) v0] ++ tail, cnt⟩
    | none, _, _ => .error .fromHexError
    | _, none, _ => .error .fromHexError
    | _, _, none => .error .parseIntError

/-- The byte list obtained by pairing a list of nibbles. -/
def nibblesToBytes : List Nat → List Nat
  | a :: b :: t => (a * 16 + b) :: nibblesToBytes t
  | _ => []

/-- The nibble expansion of a byte list. -/
def bytesToNibbles : List Nat → List Nat
  | [] => []
  | b :: t => b / 16 :: b % 16 :: bytesToNibbles t

/-- The five nibbles (20 bits) of a prefix value, most significant first. -/
def pfxNibbles (p : Nat) : List Nat :=
  [p / 65536, p / 4096 % 16, p / 256 % 16, p / 16 % 16, p % 16]

/-- Rust byte-slice comparison (`(&buf).cmp(&x)` in the store): lexicographic
element-wise order, ties broken by length. -/
def lexCmp : List Nat → List Nat → Ordering
  | [], [] => .eq
  | [], _ :: _ => .lt
  | _ :: _, [] => .gt
  | a :: as, b :: bs =>
    if a < b then .lt
    else if b < a then .gt
    else lexCmp as bs

/-! ## The local store (`src/pwned_pwd_store_local/src/lib.rs`)

The filesystem visible to `LocalStore` consists of two locations: the final
path (`LocalStore.file_path`) and the temporary path (the `download_path` /
sibling `download_tmp`); the claims only involve configurations where these
are distinct, so they are the two fields of `FS`.  Fallible IO is modelled by
an oracle `f : Nat → Bool` consulted once per IO operation, in program
order: `f k = true` makes the `k`-th operation fail.  `BufWriter` buffering
is transparent here: a write appends directly and `flush` changes nothing,
which yields exactly the byte content the real file has after a successful
`flush`. -/

/-- The two file locations the store can touch. -/
inductive FPath where
  | finalPath
  | tmpPath
deriving DecidableEq, Repr

/-- Contents of the two locations (`none` = the file does not exist). -/
structure FS where
  final : Option (List Nat)
  tmp : Option (List Nat)
deriving DecidableEq, Repr

/-- Read a location. -/
def FS.read (fs : FS) : FPath → Option (List Nat)
  | .finalPath => fs.final
  | .tmpPath => fs.tmp

/-- Overwrite a location. -/
def FS.set (fs : FS) : FPath → Option (List Nat) → FS
  | .finalPath, v => FS.mk v fs.tmp
  | .tmpPath, v => FS.mk fs.final v

/-- `ExistenceBehaviour`. -/
inductive ExistenceBehaviour where
  | removeOldThenCreateNew
  | downloadThenReplace
deriving DecidableEq, Repr

/-- The path `LocalStore::open_write` writes to, per behaviour.  In
`DownloadThenReplace` the write path is the temporary location (either the
configured `download_path` or the default sibling `download_tmp`). -/
def savePath : ExistenceBehaviour → FPath
  | .removeOldThenCreateNew => .finalPath
  | .downloadThenReplace => .tmpPath

/-- The `move_on_complete_to` target of `open_write`, per behaviour. -/
def saveMoveTo : ExistenceBehaviour → Option FPath
  | .removeOldThenCreateNew => none
  | .downloadThenReplace => some .finalPath

/-- `if path.exists() { remove_file(&path)? }`.  On failure the error carries
the filesystem at the failure point. -/
def removeIfExists (f : Nat → Bool) (k : Nat) (p : FPath) (fs : FS) :
    Except FS (Nat × FS) :=
  match fs.read p with
  | some _ => if f k then .error fs else .ok (k + 1, fs.set p none)
  | none => .ok (k, fs)

/-- `OpenOptions::create_new(true).open(&path)`: fails if the file already
exists, otherwise creates it empty. -/
def createNew (f : Nat → Bool) (k : Nat) (p : FPath) (fs : FS) :
    Except FS (Nat × FS) :=
  match fs.read p with
  | some _ => .error fs
  | none => if f k then .error fs else .ok (k + 1, fs.set p (some []))

/-- The `while let Some(pwned_pwd) = s.next().await { pwd_file.write(...)? }`
loop: each `PwdFile::write` appends the record's 20 `sha1` bytes (the
`count` field is never written). -/
def writeLoop (f : Nat → Bool) (p : FPath) : Nat → List PwnedPwd → FS →
    Except FS (Nat × FS)
  | k, [], fs => .ok (k, fs)
  | k, r :: rest, fs =>
    if f k then .error fs
    else writeLoop f p (k + 1) rest (fs.set p (some ((fs.read p).getD [] ++ r.sha1)))

/-- `PwdFile::complete`: flush, then (when `move_on_complete_to` is set)
rename the write path onto the final path. -/
def completeFS (f : Nat → Bool) (k : Nat) (p : FPath) (moveTo : Option FPath)
    (fs : FS) : Except FS FS :=
  if f k then .error fs
  else
    match moveTo with
    | some dst =>
      if f (k + 1) then .error fs
      else .ok ((fs.set p none).set dst (fs.read p))
    | none => .ok fs

/-- `LocalStore::save`: `open_write` (resolve path, remove a stale file,
create the new one), stream all records through `PwdFile::write`, then
`PwdFile::complete`.  Returns the result together with the filesystem
state. -/
def saveFS (beh : ExistenceBehaviour) (f : Nat → Bool) (recs : List PwnedPwd)
    (fs : FS) : Except Unit Unit × FS :=
  match removeIfExists f 0 (savePath beh) fs with
  | .error fs' => (.error (), fs')
  | .ok (k1, fs1) =>
    match createNew f k1 (savePath beh) fs1 with
    | .error fs' => (.error (), fs')
    | .ok (k2, fs2) =>
      match writeLoop f (savePath beh) k2 recs fs2 with
      | .error fs' => (.error (), fs')
      | .ok (k3, fs3) =>
        match completeFS f k3 (savePath beh) (saveMoveTo beh) fs3 with
        | .error fs' => (.error (), fs')
        | .ok fs4 => (.ok (), fs4)

/-- Store-side errors: a filesystem error, or exhaustion of the recursion
fuel (proved unreachable for the store's own calls). -/
inductive StoreErr where
  | ioError
  | outOfFuel
deriving DecidableEq, Repr

/-- `data.read_exact` of 20 bytes after seeking to `off`: fails when fewer
than 20 bytes remain. -/
def readRecord (data : List Nat) (off : Nat) : Option (List Nat) :=
  if off + 20 ≤ data.length then some ((data.drop off).take 20) else none

/-- The `while left < right` loop of `fn exists`: `mid = left + size / 2`,
seek to `mid * 20`, read 20 bytes, compare, narrow `[left, right)`, and pass
`size = right - left` to the next iteration exactly as the source assigns it
at the end of the loop body. -/
def searchLoop (data x : List Nat) : Nat → Nat → Nat → Nat → Except StoreErr Bool
  | 0, _, _, _ => .error .outOfFuel
  | fuel + 1, left, right, size =>
    if left < right then
      let mid := left + size / 2
      match readRecord data (mid * 20) with
      | none => .error .ioError
      | some buf =>
        match lexCmp buf x with
        | .eq => .ok true
        | .lt => searchLoop data x fuel (mid + 1) right (right - (mid + 1))
        | .gt => searchLoop data x fuel left mid (mid - left)
    else .ok false

/-- `fn exists(data, x)`: `size = seek(End) / 20`, then binary search over
`[0, size)`.  The fuel `size + 1` dominates the loop's iteration count. -/
def existsBin (data x : List Nat) : Except StoreErr Bool :=
  searchLoop data x (data.length / 20 + 1) 0 (data.length / 20) (data.length / 20)

/-- `LocalStore::exists`: `open_read` fails when the final file is absent,
otherwise runs the binary search on its bytes. -/
def storeExists (file : Option (List Nat)) (x : List Nat) : Except StoreErr Bool :=
  match file with
  | none => .error .ioError
  | some data => existsBin data x

/-! ## OrderedStream (`src/pwned_pwd/src/ordered_stream.rs` and the second
copy in `src/pwned_pwd/src/lib.rs`)

A `Stream` is consumed poll by poll; over a finite upstream the complete
observable behaviour is the list of items produced until the upstream is
exhausted, which is what `runOrderedV1` (resp. `runOrderedV2`) computes from
the state `(expected_prefix, buf)` and the remaining upstream items.  The
`BTreeMap` buffer is an association list sorted by key; only `remove` and
`insert` are ever applied to it.  In the source, after buffering a chunk the
inner loop pulls upstream again without re-checking the buffer; re-checking
(as the recursion here does) is observationally identical because the
buffered key differs from `expected_prefix`. -/

/-- `DownloadError`; the `kind` payload is irrelevant to every claim.
Field `pfx` models the Rust field `prefix`. -/
structure DlErr where
  pfx : Nat
deriving DecidableEq, Repr

/-- `OrderedStreamError`. -/
inductive OSErr where
  | discontinuous
  | downloadError (e : DlErr)
deriving DecidableEq, Repr

/-- `BTreeMap::remove(&expected)`: the removed chunk (when the key is
present) together with the remaining buffer. -/
def bufRemove (e : Nat) : List (Nat × Chunk) → Option Chunk × List (Nat × Chunk)
  | [] => (none, [])
  | (k, c) :: t =>
    if k = e then (some c, t)
    else ((bufRemove e t).1, (k, c) :: (bufRemove e t).2)

/-- `BTreeMap::insert(chunk.prefix, chunk)`: key-ordered insertion,
replacing an existing binding. -/
def bufInsert (k : Nat) (c : Chunk) : List (Nat × Chunk) → List (Nat × Chunk)
  | [] => [(k, c)]
  | (k', c') :: t =>
    if k < k' then (k, c) :: (k', c') :: t
    else if k = k' then (k, c) :: t
    else (k', c') :: bufInsert k c t

theorem bufRemove_some_length (e : Nat) (buf : List (Nat × Chunk)) :
    ∀ c buf', bufRemove e buf = (some c, buf') → buf.length = buf'.length + 1 := by
  induction buf with
  | nil => intro c buf' h; simp [bufRemove] at h
  | cons kc t ih =>
    intro c buf' h
    obtain ⟨k, c'⟩ := kc
    by_cases hk : k = e
    · simp only [bufRemove, if_pos hk, Prod.mk.injEq] at h
      obtain ⟨-, rfl⟩ := h
      simp
    · simp only [bufRemove, if_neg hk, Prod.mk.injEq] at h
      obtain ⟨h1, rfl⟩ := h
      have h2 : bufRemove e t = (some c, (bufRemove e t).2) := by rw [← h1]
      have h3 := ih c ((bufRemove e t).2) h2
      simp [h3]

theorem bufInsert_length (k : Nat) (c : Chunk) (buf : List (Nat × Chunk)) :
    (bufInsert k c buf).length ≤ buf.length + 1 := by
  induction buf with
  | nil => simp [bufInsert]
  | cons kc t ih =>
    obtain ⟨k', c'⟩ := kc
    by_cases h1 : k < k'
    · simp [bufInsert, h1]
    · by_cases h2 : k = k'
      · simp [bufInsert, h1, h2]
      · simp only [bufInsert, if_neg h1, if_neg h2, List.length_cons]
        omega

/-- `OrderedStream::poll_next` in `ordered_stream.rs`, iterated until the
upstream ends: first try to emit `buf[expected]`; otherwise pull upstream,
emitting a matching chunk, buffering a non-matching one, wrapping an
upstream error, and failing `Discontinuous` on a chunk that arrives when
`expected_prefix` is `None`. -/
def runOrderedV1 : Option Nat → List (Nat × Chunk) → List (Except DlErr Chunk) →
    List (Except OSErr Chunk)
  | some e, buf, input =>
    if h : ((bufRemove e buf).1).isSome then
      .ok (((bufRemove e buf).1).get h) ::
        runOrderedV1 (pfxNext e) (bufRemove e buf).2 input
    else
      match input with
      | [] => []
      | .error d :: rest => .error (.downloadError d) :: runOrderedV1 (some e) buf rest
      | .ok c :: rest =>
        if c.pfx = e then .ok c :: runOrderedV1 (pfxNext e) buf rest
        else runOrderedV1 (some e) (bufInsert c.pfx c buf) rest
  | none, buf, input =>
    match input with
    | [] => []
    | .error d :: rest => .error (.downloadError d) :: runOrderedV1 none buf rest
    | .ok _ :: rest => .error .discontinuous :: runOrderedV1 none buf rest
termination_by exp buf input => 2 * input.length + buf.length
decreasing_by
  · obtain ⟨c, hc⟩ := Option.isSome_iff_exists.mp h
    have h2 : bufRemove e buf = (some c, (bufRemove e buf).2) := by rw [← hc]
    have := bufRemove_some_length e buf c ((bufRemove e buf).2) h2
    omega
  · simp
  · simp only [List.length_cons]
    omega
  · have := bufInsert_length c.pfx c buf
    simp
    omega
  · simp
  · simp

/-- `OrderedStream::poll_next` in `lib.rs`, iterated the same way.  Its
differences from the other copy: a chunk arriving while `expected_prefix`
is `None` hits `panic!` (modelled as the result `none`); an upstream error
is passed through unwrapped; and after buffering it returns `Poll::Pending`
(modelled as continuing with the next poll). -/
def runOrderedV2 : Option Nat → List (Nat × Chunk) → List (Except DlErr Chunk) →
    Option (List (Except DlErr Chunk))
  | some e, buf, input =>
    if h : ((bufRemove e buf).1).isSome then
      (runOrderedV2 (pfxNext e) (bufRemove e buf).2 input).map
        (fun t => .ok (((bufRemove e buf).1).get h) :: t)
    else
      match input with
      | [] => some []
      | .error d :: rest => (runOrderedV2 (some e) buf rest).map (fun t => .error d :: t)
      | .ok c :: rest =>
        if c.pfx = e then (runOrderedV2 (pfxNext e) buf rest).map (fun t => .ok c :: t)
        else runOrderedV2 (some e) (bufInsert c.pfx c buf) rest
  | none, buf, input =>
    match input with
    | [] => some []
    | .error d :: rest => (runOrderedV2 none buf rest).map (fun t => .error d :: t)
    | .ok _ :: _ => none
termination_by exp buf input => 2 * input.length + buf.length
decreasing_by
  · obtain ⟨c, hc⟩ := Option.isSome_iff_exists.mp h
    have h2 : bufRemove e buf = (some c, (bufRemove e buf).2) := by rw [← hc]
    have := bufRemove_some_length e buf c ((bufRemove e buf).2) h2
    omega
  · simp
  · simp only [List.length_cons]
    omega
  · have := bufInsert_length c.pfx c buf
    simp
    omega
  · simp

/-! ## Prefix arithmetic claims -/

/-- Claim C8 counterexample: `forward` is not `none` on an out-of-range sum.
At `p = 1`, `v = u32::MAX` the wrapping `u32` addition produces `0`, so
`forward` returns `some 0` although `p + v = 2^32 > 0xFFFFF` (and a
debug-profile build would panic on the overflow instead). -/
theorem claim_C8_counterexample :
    pfxForward 1 4294967295 = some 0 ∧ pfxMaxVal < 1 + 4294967295 := by
  refine ⟨by decide, by decide⟩

/-- Claim C8 (amended): for every `p` and every `v` such that `p + v` does
not overflow a `u32`, `forward` returns `some (p + v)` when
`p + v ≤ 0xFFFFF` and `none` otherwise, and `Add` computes the same
function; when `p + v ≥ 2^32` the addition wraps, so the result is
`create((p + v) mod 2^32)` instead of `none`. -/
theorem claim_C8_amended (p v : Nat) (h : p + v < 4294967296) :
    pfxForward p v = (if p + v ≤ pfxMaxVal then some (p + v) else none) ∧
    pfxAdd p v = pfxForward p v := by
  constructor
  · unfold pfxForward pfxCreate
    rw [Nat.mod_eq_of_lt h]
    by_cases hle : p + v ≤ pfxMaxVal
    · rw [if_pos hle, if_neg (by omega)]
    · rw [if_neg hle, if_pos (by omega)]
  · rfl

/-- Witness for the amended C8 at `p = 0xFFFFE`, `v = 1`. -/
theorem claim_C8_witness :
    pfxForward 1048574 1 = (if 1048574 + 1 ≤ pfxMaxVal then some (1048574 + 1) else none) ∧
    pfxAdd 1048574 1 = pfxForward 1048574 1 :=
  claim_C8_amended 1048574 1 (by decide)

theorem pfxListGo_length :
    ∀ fuel p, p ≤ pfxMaxVal → pfxMaxVal - p < fuel →
      (pfxListGo fuel p).length = pfxMaxVal + 1 - p := by
  have hM : pfxMaxVal = 1048575 := rfl
  intro fuel
  induction fuel with
  | zero => intro p hp hf; omega
  | succ n ih =>
    intro p hp hf
    by_cases hmax : p = pfxMaxVal
    · subst hmax
      have hnone : pfxNext pfxMaxVal = none := by decide
      simp [pfxListGo, hnone]
    · have hlt : p < pfxMaxVal := lt_of_le_of_ne hp hmax
      have hnext : pfxNext p = some (p + 1) := by
        unfold pfxNext pfxForward pfxCreate
        rw [Nat.mod_eq_of_lt (by omega)]
        rw [if_neg (by omega)]
      have ht := ih (p + 1) (by omega) (by omega)
      simp [pfxListGo, hnext, ht]
      omega

/-- Claim C9: as written, `Prefix::count()` returns `MAX_PREFIX = 0xFFFFF =
1048575`, while `PrefixIterator` starting from prefix 0 yields `2^20 =
1048576` distinct prefixes — the function under-counts by one, contradicting
its own doc comment. -/
theorem claim_C9_count_off_by_one :
    pfxCount = 1048575 ∧ (pfxList 0).length = 1048576 ∧
    pfxCount = pfxMax ∧ pfxCount + 1 = (pfxList 0).length := by
  have h := pfxListGo_length (pfxMaxVal + 1) 0 (by decide) (by decide)
  unfold pfxList
  rw [h]
  refine ⟨rfl, by decide, rfl, by decide⟩

/-! ## The `exists` binary search: error behaviour (claim C7) -/

/-- Claim C7 counterexample: a backing file of 30 bytes (30 mod 20 ≠ 0) does
not produce an `IoError`; the search runs on the first `30 / 20 = 1` record
and returns a boolean. -/
theorem claim_C7_counterexample :
    (List.replicate 30 0).length % 20 ≠ 0 ∧
    existsBin (List.replicate 30 0) (List.replicate 20 1) = .ok false := by
  refine ⟨by decide, by rfl⟩

theorem searchLoop_ok (data x : List Nat) :
    ∀ fuel left right size, size = right - left → right ≤ data.length / 20 →
      right - left < fuel →
      ∃ b, searchLoop data x fuel left right size = Except.ok b := by
  intro fuel
  induction fuel with
  | zero => intro left right size hs hr hf; omega
  | succ n ih =>
    intro left right size hs hr hf
    by_cases hlr : left < right
    · have hmid : left + size / 2 < right := by omega
      have hbound : (left + size / 2) * 20 + 20 ≤ data.length := by
        have h1 : left + size / 2 + 1 ≤ data.length / 20 := by omega
        calc (left + size / 2) * 20 + 20 = (left + size / 2 + 1) * 20 := by ring
          _ ≤ (data.length / 20) * 20 := Nat.mul_le_mul_right 20 h1
          _ ≤ data.length := Nat.div_mul_le_self _ 20
      have hread : readRecord data ((left + size / 2) * 20) =
          some ((data.drop ((left + size / 2) * 20)).take 20) := by
        unfold readRecord
        rw [if_pos hbound]
      simp only [searchLoop, if_pos hlr, hread]
      rcases hcmp : lexCmp ((data.drop ((left + size / 2) * 20)).take 20) x with _ | _ | _
      · exact ih (left + size / 2 + 1) right (right - (left + size / 2 + 1)) rfl hr (by omega)
      · exact ⟨true, rfl⟩
      · exact ih left (left + size / 2) (left + size / 2 - left) rfl (by omega) (by omega)
    · simp only [searchLoop, if_neg hlr]
      exact ⟨false, rfl⟩

/-- Claim C7 (amended): `exists` returns `IoError` when the backing file is
absent (or a read fails); it does not detect truncation — when the file
length is not a multiple of 20 the trailing bytes are ignored and the
binary search over the first `length / 20` records still returns a
boolean. -/
theorem claim_C7_amended (x : List Nat) :
    storeExists none x = .error .ioError ∧
    ∀ data : List Nat, ∃ b, storeExists (some data) x = Except.ok b := by
  constructor
  · rfl
  · intro data
    have h := searchLoop_ok data x (data.length / 20 + 1) 0 (data.length / 20)
      (data.length / 20) (by omega) (le_refl _) (by omega)
    simpa [storeExists, existsBin] using h

/-! ## Parser correctness (claim C4) -/

theorem hexVal_lt (c v : Nat) (h : hexVal c = some v) : v < 16 := by
  unfold hexVal at h
  split_ifs at h with h1 h2 h3
  · injection h with h'; omega
  · injection h with h'; omega
  · injection h with h'; omega

theorem lor_nibble_fin :
    ∀ a : Fin 16, ∀ v : Fin 16, Nat.lor (a.val * 16) v.val = a.val * 16 + v.val := by
  decide

theorem lor_nibble (a v : Nat) (ha : a < 16) (hv : v < 16) :
    Nat.lor (a * 16) v = a * 16 + v :=
  lor_nibble_fin ⟨a, ha⟩ ⟨v, hv⟩

theorem decodeHex_eq :
    ∀ n (l : List Nat), l.length ≤ n → (∀ c ∈ l, (hexVal c).isSome) →
      l.length % 2 = 0 → decodeHex l = some (nibblesToBytes (l.map hexValD)) := by
  intro n
  induction n with
  | zero =>
    intro l hlen hall hev
    have : l = [] := List.length_eq_zero.mp (by omega)
    subst this
    simp [decodeHex, nibblesToBytes]
  | succ n ih =>
    intro l hlen hall hev
    rcases l with _ | ⟨a, _ | ⟨b, t⟩⟩
    · simp [decodeHex, nibblesToBytes]
    · simp at hev
    · obtain ⟨va, hva⟩ := Option.isSome_iff_exists.mp (hall a (by simp))
      obtain ⟨vb, hvb⟩ := Option.isSome_iff_exists.mp (hall b (by simp))
      have hlen' : t.length ≤ n := by simp at hlen; omega
      have hev' : t.length % 2 = 0 := by simp at hev ⊢; omega
      have ht := ih t hlen' (fun c hc => hall c (by simp [hc])) hev'
      simp only [decodeHex, hva, hvb, ht, List.map_cons, nibblesToBytes, hexValD,
        Option.getD_some, Option.some.injEq]

/-- Claim C4: on every HIBP-format valid line (length at least 37, a `:` at
byte 35, the first 35 bytes hex digits, the tail a decimal `u32`) with a
valid 20-bit prefix, the parser succeeds; the resulting sha1 is the byte
string whose 40 nibbles are the 5 prefix nibbles followed by the values of
the line's 35 hex characters, and the count is the parsed decimal tail. -/
theorem claim_C4_parse_valid (p : Nat) (line : List Nat)
    (hp : p ≤ pfxMaxVal)
    (hlen : 37 ≤ line.length)
    (hcolon : line.getD 35 0 = 58)
    (hhex : ∀ c ∈ line.take 35, (hexVal c).isSome)
    (hcnt : (parseU32 (line.drop 36)).isSome) :
    Parser.parse p line =
      .ok ⟨nibblesToBytes (pfxNibbles p ++ (line.take 35).map hexValD),
           (parseU32 (line.drop 36)).getD 0⟩ := by
  have hM : pfxMaxVal = 1048575 := rfl
  rcases line with _ | ⟨c0, rest⟩
  · simp at hlen
  · have hrest : 36 ≤ rest.length := by simp at hlen; omega
    have htake : (c0 :: rest).take 35 = c0 :: rest.take 34 := rfl
    obtain ⟨v0, hv0⟩ := Option.isSome_iff_exists.mp (hhex c0 (by rw [htake]; simp))
    have hrtake : ∀ c ∈ rest.take 34, (hexVal c).isSome := by
      intro c hc
      exact hhex c (by rw [htake]; simp [hc])
    have hlen34 : (rest.take 34).length = 34 := by
      rw [List.length_take]
      omega
    have hdec := decodeHex_eq 34 (rest.take 34) (by omega) hrtake (by rw [hlen34])
    obtain ⟨cnt, hcnt'⟩ := Option.isSome_iff_exists.mp hcnt
    have hv0lt := hexVal_lt c0 v0 hv0
    have hvd0 : hexValD c0 = v0 := by unfold hexValD; rw [hv0]; rfl
    unfold Parser.parse
    rw [if_neg (by simp; omega)]
    rw [if_neg (by simp only [hcolon]; omega)]
    have hdrop : (c0 :: rest).drop 1 = rest := rfl
    rw [hdrop]
    have hdrop36 : (c0 :: rest).drop 36 = rest.drop 35 := rfl
    rw [hdrop36] at hcnt' ⊢
    have hgd0 : (c0 :: rest).getD 0 0 = c0 := rfl
    rw [hgd0, hv0, hdec, hcnt']
    rw [htake]
    simp only [List.map_cons, hvd0, Option.getD_some]
    have hw16 : p * 16 % 4294967296 = p * 16 := Nat.mod_eq_of_lt (by omega)
    have e0 : (writePfx p).getD 0 0 = p * 16 % 4294967296 / 65536 % 256 := rfl
    have e1 : (writePfx p).getD 1 0 = p * 16 % 4294967296 / 256 % 256 := rfl
    have e2 : (writePfx p).getD 2 0 = p * 16 % 4294967296 % 256 := rfl
    rw [e0, e1, e2, hw16]
    have hb2 : p * 16 % 256 = p % 16 * 16 := by omega
    rw [hb2, lor_nibble (p % 16) v0 (by omega) hv0lt]
    have g0 : p * 16 / 65536 % 256 = p / 65536 * 16 + p / 4096 % 16 := by omega
    have g1 : p * 16 / 256 % 256 = p / 256 % 16 * 16 + p / 16 % 16 := by omega
    rw [g0, g1]
    simp only [pfxNibbles, List.cons_append, List.nil_append, nibblesToBytes]

/-- The scenario line `"004DDDC80AE4683948C5A1C5903584D8087:13"` as bytes. -/
def hibpLine : List Nat :=
  [48, 48, 52, 68, 68, 68, 67, 56, 48, 65, 69, 52, 54, 56, 51, 57, 52, 56, 67,
   53, 65, 49, 67, 53, 57, 48, 51, 53, 56, 52, 68, 56, 48, 56, 55, 58, 49, 51]

/-- Witness for C4: the parser for prefix `0x21BD4` on the scenario line
yields sha1 `21BD4004DDDC80AE4683948C5A1C5903584D8087` and count `13`. -/
theorem claim_C4_witness :
    Parser.parse 0x21BD4 hibpLine =
      .ok ⟨[0x21, 0xBD, 0x40, 0x04, 0xDD, 0xDC, 0x80, 0xAE, 0x46, 0x83, 0x94,
            0x8C, 0x5A, 0x1C, 0x59, 0x03, 0x58, 0x4D, 0x80, 0x87], 13⟩ := by
  have h := claim_C4_parse_valid 0x21BD4 hibpLine (by decide) (by decide) (by decide)
    (by decide) (by decide)
  exact h.trans (by rfl)

/-! ## `LocalStore::save`: file content and atomic publication (C5, C6) -/

/-- The filesystem carried by either outcome of a store step. -/
def stateOf : Except FS (Nat × FS) → FS
  | .error fs => fs
  | .ok (_, fs) => fs

theorem writeLoop_read (f : Nat → Bool) (p : FPath) :
    ∀ recs k fs k' fs', writeLoop f p k recs fs = .ok (k', fs') →
      fs'.read p = some ((fs.read p).getD [] ++ (recs.map PwnedPwd.sha1).flatten) ∨
      (fs'.read p = fs.read p ∧ recs = []) := by
  intro recs
  induction recs with
  | nil =>
    intro k fs k' fs' h
    simp only [writeLoop] at h
    injection h with h'
    injection h' with h1 h2
    subst h2
    right
    exact ⟨rfl, rfl⟩
  | cons r rest ih =>
    intro k fs k' fs' h
    simp only [writeLoop] at h
    by_cases hf : f k
    · rw [if_pos hf] at h
      exact absurd h (by simp)
    · rw [if_neg hf] at h
      have := ih (k + 1) (fs.set p (some ((fs.read p).getD [] ++ r.sha1))) k' fs' h
      have hrd : (fs.set p (some ((fs.read p).getD [] ++ r.sha1))).read p =
          some ((fs.read p).getD [] ++ r.sha1) := by
        cases p <;> rfl
      rcases this with h1 | ⟨h1, h2⟩
      · left
        rw [h1, hrd]
        simp [List.append_assoc]
      · left
        subst h2
        rw [h1, hrd]
        simp

theorem FS.read_set_same (fs : FS) (P : FPath) (v : Option (List Nat)) :
    (fs.set P v).read P = v := by
  cases P <;> rfl

theorem FS.read_set_other (fs : FS) (P q : FPath) (v : Option (List Nat))
    (h : q ≠ P) : (fs.set P v).read q = fs.read q := by
  cases P <;> cases q <;> first | rfl | exact absurd rfl h

theorem createNew_ok_state (f : Nat → Bool) (k : Nat) (P : FPath) (fs : FS)
    (k' : Nat) (fs' : FS) (h : createNew f k P fs = .ok (k', fs')) :
    fs' = fs.set P (some []) := by
  unfold createNew at h
  split at h
  · exact Except.noConfusion h
  · split at h
    · exact Except.noConfusion h
    · injection h with h'
      injection h' with h1 h2
      exact h2.symm

theorem removeIfExists_read_other (f : Nat → Bool) (k : Nat) (P : FPath)
    (fs : FS) (q : FPath) (hq : q ≠ P) :
    (stateOf (removeIfExists f k P fs)).read q = fs.read q := by
  unfold removeIfExists
  rcases hr : fs.read P with _ | v
  · rfl
  · split_ifs with hf
    · rfl
    · exact FS.read_set_other fs P q none hq

theorem createNew_read_other (f : Nat → Bool) (k : Nat) (P : FPath)
    (fs : FS) (q : FPath) (hq : q ≠ P) :
    (stateOf (createNew f k P fs)).read q = fs.read q := by
  unfold createNew
  rcases hr : fs.read P with _ | v
  · split_ifs with hf
    · rfl
    · exact FS.read_set_other fs P q (some []) hq
  · rfl

theorem writeLoop_read_other (f : Nat → Bool) (P : FPath) (q : FPath)
    (hq : q ≠ P) :
    ∀ recs k fs, (stateOf (writeLoop f P k recs fs)).read q = fs.read q := by
  intro recs
  induction recs with
  | nil => intro k fs; rfl
  | cons r rest ih =>
    intro k fs
    unfold writeLoop
    split_ifs with hf
    · rfl
    · rw [ih (k + 1) (fs.set P (some ((fs.read P).getD [] ++ r.sha1)))]
      exact FS.read_set_other fs P q _ hq

theorem completeFS_error_state (f : Nat → Bool) (k : Nat) (P : FPath)
    (mv : Option FPath) (fs fsE : FS) (h : completeFS f k P mv fs = .error fsE) :
    fsE = fs := by
  unfold completeFS at h
  rcases mv with _ | dst
  · split_ifs at h with h1
    all_goals
      injection h with h'
      exact h'.symm
  · split_ifs at h with h1 h2
    all_goals
      injection h with h'
      exact h'.symm

theorem saveFS_ok_final (beh : ExistenceBehaviour) (f : Nat → Bool)
    (recs : List PwnedPwd) (fs fs' : FS)
    (h : saveFS beh f recs fs = (.ok (), fs')) :
    fs'.final = some ((recs.map PwnedPwd.sha1).flatten) := by
  unfold saveFS at h
  split at h
  · injection h with h1 h2; exact Except.noConfusion h1
  rename_i k1 fs1 hrem
  split at h
  · injection h with h1 h2; exact Except.noConfusion h1
  rename_i k2 fs2 hcr
  split at h
  · injection h with h1 h2; exact Except.noConfusion h1
  rename_i k3 fs3 hwr
  split at h
  · injection h with h1 h2; exact Except.noConfusion h1
  rename_i fs4 hcm
  injection h with h1 h2
  subst h2
  have hfs2 := createNew_ok_state f k1 (savePath beh) fs1 k2 fs2 hcr
  have hfs2r : fs2.read (savePath beh) = some [] := by
    rw [hfs2]
    exact FS.read_set_same fs1 (savePath beh) (some [])
  have hw := writeLoop_read f (savePath beh) recs k2 fs2 k3 fs3 hwr
  have hfs3 : fs3.read (savePath beh) = some ((recs.map PwnedPwd.sha1).flatten) := by
    rcases hw with h1' | ⟨h1', h2'⟩
    · rw [h1', hfs2r]
      simp
    · subst h2'
      rw [h1', hfs2r]
      simp
  unfold completeFS at hcm
  cases beh
  · simp only [saveMoveTo] at hcm
    split_ifs at hcm with h1
    all_goals
      injection hcm with h3
      rw [← h3]
      exact hfs3
  · simp only [saveMoveTo] at hcm
    split_ifs at hcm with h1 h2
    all_goals
      injection hcm with h3
      rw [← h3]
      exact (FS.read_set_same _ FPath.finalPath _).trans hfs3

theorem flatten_length_20 (l : List (List Nat)) (h : ∀ r ∈ l, r.length = 20) :
    l.flatten.length = 20 * l.length := by
  induction l with
  | nil => simp
  | cons r t ih =>
    simp only [List.flatten_cons, List.length_append, List.length_cons]
    rw [h r (by simp), ih (fun r' hr' => h r' (by simp [hr']))]
    ring

/-- Claim C5: a successful `save` leaves at the final path exactly the
concatenation, in stream order, of each record's `sha1` bytes (the `count`
field is never written), and with 20-byte records the file length is exactly
`20 * N`. -/
theorem claim_C5_file_bytes (beh : ExistenceBehaviour) (f : Nat → Bool)
    (recs : List PwnedPwd) (fs fs' : FS)
    (hlen : ∀ r ∈ recs, r.sha1.length = 20)
    (h : saveFS beh f recs fs = (.ok (), fs')) :
    fs'.final = some ((recs.map PwnedPwd.sha1).flatten) ∧
    ((recs.map PwnedPwd.sha1).flatten).length = 20 * recs.length := by
  refine ⟨saveFS_ok_final beh f recs fs fs' h, ?_⟩
  have hall : ∀ r ∈ recs.map PwnedPwd.sha1, r.length = 20 := by
    intro r hr
    obtain ⟨a, ha, rfl⟩ := List.mem_map.mp hr
    exact hlen a ha
  rw [flatten_length_20 (recs.map PwnedPwd.sha1) hall, List.length_map]

/-- Witness for C5: one concrete record through a fault-free save. -/
theorem claim_C5_witness :
    (saveFS .downloadThenReplace (fun _ => false)
        [⟨List.replicate 20 3, 5⟩] (FS.mk none none)).2.final =
      some (([(⟨List.replicate 20 3, 5⟩ : PwnedPwd)].map PwnedPwd.sha1).flatten) ∧
    (([(⟨List.replicate 20 3, 5⟩ : PwnedPwd)].map PwnedPwd.sha1).flatten).length =
      20 * [(⟨List.replicate 20 3, 5⟩ : PwnedPwd)].length :=
  claim_C5_file_bytes .downloadThenReplace (fun _ => false)
    [⟨List.replicate 20 3, 5⟩] (FS.mk none none) _ (by decide) rfl

theorem removeIfExists_final (f : Nat → Bool) (k : Nat) (fs : FS) :
    (stateOf (removeIfExists f k FPath.tmpPath fs)).final = fs.final :=
  removeIfExists_read_other f k FPath.tmpPath fs FPath.finalPath
    (fun hh => FPath.noConfusion hh)

theorem createNew_final (f : Nat → Bool) (k : Nat) (fs : FS) :
    (stateOf (createNew f k FPath.tmpPath fs)).final = fs.final :=
  createNew_read_other f k FPath.tmpPath fs FPath.finalPath
    (fun hh => FPath.noConfusion hh)

theorem writeLoop_final (f : Nat → Bool) (recs : List PwnedPwd) (k : Nat)
    (fs : FS) :
    (stateOf (writeLoop f FPath.tmpPath k recs fs)).final = fs.final :=
  writeLoop_read_other f FPath.tmpPath FPath.finalPath
    (fun hh => FPath.noConfusion hh) recs k fs

/-- Claim C6: in `DownloadThenReplace` mode (the temporary location distinct
from the final one, by default the sibling `download_tmp`), every failing
`save` leaves the content at the final path unchanged: all writes go to the
temporary location, and the rename onto the final path happens only in
`complete`, after the stream ended and the flush succeeded. -/
theorem claim_C6_atomic_publish (f : Nat → Bool) (recs : List PwnedPwd)
    (fs fs' : FS) (e : Unit)
    (h : saveFS .downloadThenReplace f recs fs = (.error e, fs')) :
    fs'.final = fs.final := by
  unfold saveFS at h
  rw [show savePath .downloadThenReplace = FPath.tmpPath from rfl] at h
  split at h
  · rename_i fs0 hrem
    injection h with h1 h2
    subst h2
    have hs : stateOf (removeIfExists f 0 FPath.tmpPath fs) = fs0 := by rw [hrem]; rfl
    rw [← hs]
    exact removeIfExists_final f 0 fs
  rename_i k1 fs1 hrem
  have hf1 : fs1.final = fs.final := by
    have hs : stateOf (removeIfExists f 0 FPath.tmpPath fs) = fs1 := by rw [hrem]; rfl
    rw [← hs]
    exact removeIfExists_final f 0 fs
  split at h
  · rename_i fs0 hcr
    injection h with h1 h2
    subst h2
    have hs : stateOf (createNew f k1 FPath.tmpPath fs1) = fs0 := by rw [hcr]; rfl
    rw [← hs, createNew_final f k1 fs1]
    exact hf1
  rename_i k2 fs2 hcr
  have hf2 : fs2.final = fs.final := by
    have hs : stateOf (createNew f k1 FPath.tmpPath fs1) = fs2 := by rw [hcr]; rfl
    rw [← hs, createNew_final f k1 fs1]
    exact hf1
  split at h
  · rename_i fs0 hwr
    injection h with h1 h2
    subst h2
    have hs : stateOf (writeLoop f FPath.tmpPath k2 recs fs2) = fs0 := by rw [hwr]; rfl
    rw [← hs, writeLoop_final f recs k2 fs2]
    exact hf2
  rename_i k3 fs3 hwr
  have hf3 : fs3.final = fs.final := by
    have hs : stateOf (writeLoop f FPath.tmpPath k2 recs fs2) = fs3 := by rw [hwr]; rfl
    rw [← hs, writeLoop_final f recs k2 fs2]
    exact hf2
  split at h
  · rename_i fs0 hcm
    injection h with h1 h2
    subst h2
    rw [completeFS_error_state f k3 FPath.tmpPath
      (saveMoveTo .downloadThenReplace) fs3 fs0 hcm]
    exact hf3
  rename_i fs4 hcm
  injection h with h1 h2
  exact Except.noConfusion h1

/-- Witness for C6: the first IO operation fails, the final file keeps its
previous content. -/
theorem claim_C6_witness :
    (saveFS .downloadThenReplace (fun _ => true) []
        (FS.mk (some [7]) (some [8]))).2.final =
      (FS.mk (some [7]) (some [8])).final :=
  claim_C6_atomic_publish (fun _ => true) [] (FS.mk (some [7]) (some [8])) _ () rfl

/-! ## Byte-wise order and binary search correctness (claim C1) -/

theorem lexCmp_self (a : List Nat) : lexCmp a a = .eq := by
  induction a with
  | nil => rfl
  | cons x t ih => simp [lexCmp, ih]

theorem lexCmp_eq_of : ∀ a b : List Nat, lexCmp a b = .eq → a = b := by
  intro a
  induction a with
  | nil =>
    intro b h
    cases b with
    | nil => rfl
    | cons y bs => exact Ordering.noConfusion h
  | cons x as ih =>
    intro b h
    cases b with
    | nil => exact Ordering.noConfusion h
    | cons y bs =>
      simp only [lexCmp] at h
      by_cases h1 : x < y
      · rw [if_pos h1] at h
        exact Ordering.noConfusion h
      · rw [if_neg h1] at h
        by_cases h2 : y < x
        · rw [if_pos h2] at h
          exact Ordering.noConfusion h
        · rw [if_neg h2] at h
          have hxy : x = y := by omega
          rw [hxy, ih bs h]

theorem lexCmp_gt_iff : ∀ a b : List Nat, lexCmp a b = .gt ↔ lexCmp b a = .lt := by
  intro a
  induction a with
  | nil =>
    intro b
    cases b with
    | nil => simp [lexCmp]
    | cons y bs => simp [lexCmp]
  | cons x as ih =>
    intro b
    cases b with
    | nil => simp [lexCmp]
    | cons y bs =>
      simp only [lexCmp]
      by_cases h1 : x < y
      · rw [if_pos h1, if_neg (by omega), if_pos h1]
        simp
      · rw [if_neg h1]
        by_cases h2 : y < x
        · rw [if_pos h2, if_pos h2]
          simp
        · rw [if_neg h2, if_neg h2, if_neg h1]
          exact ih bs

theorem lexCmp_lt_trans : ∀ a b c : List Nat,
    lexCmp a b = .lt → lexCmp b c = .lt → lexCmp a c = .lt := by
  intro a
  induction a with
  | nil =>
    intro b c hab hbc
    cases b with
    | nil => exact Ordering.noConfusion hab
    | cons y bs =>
      cases c with
      | nil => exact Ordering.noConfusion hbc
      | cons z cs => rfl
  | cons x as ih =>
    intro b c hab hbc
    cases b with
    | nil => exact Ordering.noConfusion hab
    | cons y bs =>
      cases c with
      | nil => exact Ordering.noConfusion hbc
      | cons z cs =>
        simp only [lexCmp] at hab hbc ⊢
        by_cases h1 : x < y
        · by_cases h2 : y < z
          · rw [if_pos (show x < z by omega)]
          · rw [if_neg h2] at hbc
            by_cases h3 : z < y
            · rw [if_pos h3] at hbc
              exact Ordering.noConfusion hbc
            · rw [if_pos (show x < z by omega)]
        · rw [if_neg h1] at hab
          by_cases h1' : y < x
          · rw [if_pos h1'] at hab
            exact Ordering.noConfusion hab
          · rw [if_neg h1'] at hab
            by_cases h2 : y < z
            · rw [if_pos (show x < z by omega)]
            · rw [if_neg h2] at hbc
              by_cases h3 : z < y
              · rw [if_pos h3] at hbc
                exact Ordering.noConfusion hbc
              · rw [if_neg h3] at hbc
                rw [if_neg (show ¬x < z by omega), if_neg (show ¬z < x by omega)]
                exact ih bs cs hab hbc

theorem readRecord_flatten :
    ∀ (l : List (List Nat)), (∀ r ∈ l, r.length = 20) →
      ∀ i (hi : i < l.length),
        readRecord l.flatten (i * 20) = some (l.get ⟨i, hi⟩) := by
  intro l
  induction l with
  | nil => intro h i hi; simp at hi
  | cons r t ih =>
    intro h i hi
    have hr : r.length = 20 := h r (by simp)
    have hflat : (r :: t).flatten = r ++ t.flatten := rfl
    cases i with
    | zero =>
      unfold readRecord
      rw [hflat]
      rw [if_pos (by rw [List.length_append, hr]; omega)]
      simp only [Nat.zero_mul, List.drop_zero, Option.some.injEq]
      rw [show (20 : Nat) = r.length from hr.symm]
      exact List.take_left r t.flatten
    | succ j =>
      have hj : j < t.length := by simp at hi; omega
      have hrec := ih (fun r' h' => h r' (by simp [h'])) j hj
      unfold readRecord at hrec ⊢
      rw [hflat]
      have hd : (r ++ t.flatten).drop ((j + 1) * 20) = t.flatten.drop (j * 20) := by
        rw [show (j + 1) * 20 = r.length + j * 20 by rw [hr]; ring]
        exact List.drop_append (j * 20)
      by_cases hc : j * 20 + 20 ≤ t.flatten.length
      · rw [if_pos hc] at hrec
        rw [if_pos (by rw [List.length_append, hr]; omega), hd]
        exact hrec
      · rw [if_neg hc] at hrec
        exact Option.noConfusion hrec

theorem searchLoop_correct (l : List (List Nat)) (x : List Nat)
    (hlen : ∀ r ∈ l, r.length = 20)
    (hsorted : List.Pairwise (fun a b => lexCmp a b = Ordering.lt) l) :
    ∀ fuel left right size, size = right - left → right ≤ l.length →
      right - left < fuel →
      (∀ i (hi : i < l.length), i < left → lexCmp (l.get ⟨i, hi⟩) x = .lt) →
      (∀ i (hi : i < l.length), right ≤ i → lexCmp (l.get ⟨i, hi⟩) x = .gt) →
      searchLoop l.flatten x fuel left right size = .ok (decide (x ∈ l)) := by
  intro fuel
  induction fuel with
  | zero => intro left right size hs hr hf hlo hhi; omega
  | succ n ih =>
    intro left right size hs hr hf hlo hhi
    by_cases hlr : left < right
    · have hmid : left + size / 2 < right := by omega
      have hmidl : left + size / 2 < l.length := by omega
      have hread := readRecord_flatten l hlen (left + size / 2) hmidl
      simp only [searchLoop, if_pos hlr, hread]
      rcases hcmp : lexCmp (l.get ⟨left + size / 2, hmidl⟩) x with _ | _ | _
      · refine ih (left + size / 2 + 1) right (right - (left + size / 2 + 1)) rfl hr
          (by omega) ?_ hhi
        intro i hi hilt
        by_cases hil : i < left
        · exact hlo i hi hil
        · by_cases him : i = left + size / 2
          · subst him
            exact hcmp
          · have hlt : i < left + size / 2 := by omega
            have hso := (List.pairwise_iff_get.mp hsorted) ⟨i, hi⟩
              ⟨left + size / 2, hmidl⟩ (Fin.mk_lt_mk.mpr hlt)
            exact lexCmp_lt_trans _ _ _ hso hcmp
      · have hx : l.get ⟨left + size / 2, hmidl⟩ = x := lexCmp_eq_of _ _ hcmp
        have hmem : x ∈ l := by
          rw [← hx]
          exact l.get_mem _ _
        simp [hmem]
      · refine ih left (left + size / 2) (left + size / 2 - left) rfl (by omega)
          (by omega) hlo ?_
        intro i hi hge
        by_cases him : i = left + size / 2
        · subst him
          exact hcmp
        · have hmi : left + size / 2 < i := by omega
          have hso := (List.pairwise_iff_get.mp hsorted) ⟨left + size / 2, hmidl⟩
            ⟨i, hi⟩ (Fin.mk_lt_mk.mpr hmi)
          have h1 : lexCmp x (l.get ⟨left + size / 2, hmidl⟩) = .lt :=
            (lexCmp_gt_iff _ _).mp hcmp
          have h2 : lexCmp x (l.get ⟨i, hi⟩) = .lt := lexCmp_lt_trans _ _ _ h1 hso
          exact (lexCmp_gt_iff _ _).mpr h2
    · simp only [searchLoop, if_neg hlr]
      have hnot : x ∉ l := by
        intro hmem
        obtain ⟨⟨i, hi⟩, hg⟩ := List.mem_iff_get.mp hmem
        by_cases hil : i < left
        · have hx := hlo i hi hil
          rw [hg, lexCmp_self] at hx
          exact Ordering.noConfusion hx
        · have hx := hhi i hi (by omega)
          rw [hg, lexCmp_self] at hx
          exact Ordering.noConfusion hx
      simp [hnot]

theorem existsBin_flatten (l : List (List Nat)) (x : List Nat)
    (hlen : ∀ r ∈ l, r.length = 20)
    (hsorted : List.Pairwise (fun a b => lexCmp a b = Ordering.lt) l) :
    existsBin l.flatten x = .ok (decide (x ∈ l)) := by
  have hflen : l.flatten.length = 20 * l.length := flatten_length_20 l hlen
  have hsize : l.flatten.length / 20 = l.length := by rw [hflen]; omega
  unfold existsBin
  rw [hsize]
  exact searchLoop_correct l x hlen hsorted (l.length + 1) 0 l.length l.length
    (by omega) (le_refl _) (by omega)
    (fun i hi h => absurd h (by omega))
    (fun i hi h => absurd hi (by omega))

/-- Claim C1: after a successful `save` of records with 20-byte sha1s in
strictly ascending lexicographic order, `exists` answers membership exactly:
`true` for every saved sha1 and `false` for every 20-byte value not among
them (in particular for every byte-neighbour of a saved value that is not
itself saved). -/
theorem claim_C1_roundtrip (beh : ExistenceBehaviour) (f : Nat → Bool)
    (recs : List PwnedPwd) (fs fs' : FS)
    (hlen : ∀ r ∈ recs, r.sha1.length = 20)
    (hsorted : List.Pairwise (fun a b => lexCmp a.sha1 b.sha1 = Ordering.lt) recs)
    (hsave : saveFS beh f recs fs = (.ok (), fs'))
    (x : List Nat) (hx : x.length = 20) :
    storeExists fs'.final x = .ok (decide (x ∈ recs.map PwnedPwd.sha1)) := by
  rw [saveFS_ok_final beh f recs fs fs' hsave]
  have hlen' : ∀ r ∈ recs.map PwnedPwd.sha1, r.length = 20 := by
    intro r hr
    obtain ⟨a, ha, rfl⟩ := List.mem_map.mp hr
    exact hlen a ha
  have hsorted' : List.Pairwise (fun a b => lexCmp a b = Ordering.lt)
      (recs.map PwnedPwd.sha1) := List.pairwise_map.mpr hsorted
  exact existsBin_flatten (recs.map PwnedPwd.sha1) x hlen' hsorted'

/-- Witness for C1: two concrete sorted records saved fault-free, then a
membership query for the second one. -/
theorem claim_C1_witness :
    storeExists (saveFS .downloadThenReplace (fun _ => false)
        [⟨List.replicate 20 0, 1⟩, ⟨List.replicate 19 0 ++ [1], 2⟩]
        (FS.mk none none)).2.final (List.replicate 19 0 ++ [1]) =
      .ok (decide ((List.replicate 19 0 ++ [1]) ∈
        ([⟨List.replicate 20 0, 1⟩, ⟨List.replicate 19 0 ++ [1], 2⟩] :
          List PwnedPwd).map PwnedPwd.sha1)) :=
  claim_C1_roundtrip .downloadThenReplace (fun _ => false)
    [⟨List.replicate 20 0, 1⟩, ⟨List.replicate 19 0 ++ [1], 2⟩]
    (FS.mk none none) _ (by decide) (by decide) rfl
    (List.replicate 19 0 ++ [1]) (by decide)

/-! ## OrderedStream: step equations and buffer lemmas (claims C2, C3, C10) -/

theorem pfxNext_eq (e : Nat) (h : e < pfxMaxVal) : pfxNext e = some (e + 1) := by
  have hM : pfxMaxVal = 1048575 := rfl
  unfold pfxNext pfxForward pfxCreate
  rw [Nat.mod_eq_of_lt (by omega), if_neg (by omega)]

theorem runV1_buf_hit (e : Nat) (buf : List (Nat × Chunk))
    (input : List (Except DlErr Chunk)) (c : Chunk) (buf' : List (Nat × Chunk))
    (h : bufRemove e buf = (some c, buf')) :
    runOrderedV1 (some e) buf input =
      .ok c :: runOrderedV1 (pfxNext e) buf' input := by
  rw [runOrderedV1.eq_def]
  simp only [h, Option.isSome_some, Option.get_some, dite_true]

theorem runV1_nil (e : Nat) (buf : List (Nat × Chunk))
    (h : (bufRemove e buf).1 = none) :
    runOrderedV1 (some e) buf [] = [] := by
  rw [runOrderedV1.eq_def]
  simp only [h, Option.isSome_none, Bool.false_eq_true, dite_false]

theorem runV1_err (e : Nat) (buf : List (Nat × Chunk)) (d : DlErr)
    (rest : List (Except DlErr Chunk)) (h : (bufRemove e buf).1 = none) :
    runOrderedV1 (some e) buf (.error d :: rest) =
      .error (.downloadError d) :: runOrderedV1 (some e) buf rest := by
  rw [runOrderedV1.eq_def]
  simp only [h, Option.isSome_none, Bool.false_eq_true, dite_false]

theorem runV1_emit (e : Nat) (buf : List (Nat × Chunk)) (c : Chunk)
    (rest : List (Except DlErr Chunk)) (h : (bufRemove e buf).1 = none)
    (hc : c.pfx = e) :
    runOrderedV1 (some e) buf (.ok c :: rest) =
      .ok c :: runOrderedV1 (pfxNext e) buf rest := by
  rw [runOrderedV1.eq_def]
  simp only [h, Option.isSome_none, Bool.false_eq_true, dite_false, if_pos hc]

theorem runV1_buffer (e : Nat) (buf : List (Nat × Chunk)) (c : Chunk)
    (rest : List (Except DlErr Chunk)) (h : (bufRemove e buf).1 = none)
    (hc : c.pfx ≠ e) :
    runOrderedV1 (some e) buf (.ok c :: rest) =
      runOrderedV1 (some e) (bufInsert c.pfx c buf) rest := by
  rw [runOrderedV1.eq_def]
  simp only [h, Option.isSome_none, Bool.false_eq_true, dite_false, if_neg hc]

theorem runV1_none_nil (buf : List (Nat × Chunk)) :
    runOrderedV1 none buf [] = [] := by
  rw [runOrderedV1.eq_def]

theorem runV1_none_err (buf : List (Nat × Chunk)) (d : DlErr)
    (rest : List (Except DlErr Chunk)) :
    runOrderedV1 none buf (.error d :: rest) =
      .error (.downloadError d) :: runOrderedV1 none buf rest := by
  rw [runOrderedV1.eq_def]

theorem runV1_none_ok (buf : List (Nat × Chunk)) (c : Chunk)
    (rest : List (Except DlErr Chunk)) :
    runOrderedV1 none buf (.ok c :: rest) =
      .error .discontinuous :: runOrderedV1 none buf rest := by
  rw [runOrderedV1.eq_def]

theorem runV1_empty (exp : Option Nat) : runOrderedV1 exp [] [] = [] := by
  cases exp with
  | none => exact runV1_none_nil []
  | some e => exact runV1_nil e [] rfl

theorem bufRemove_mem (e : Nat) :
    ∀ buf : List (Nat × Chunk), e ∈ buf.map Prod.fst →
      ∃ c pre post, bufRemove e buf = (some c, pre ++ post) ∧
        buf = pre ++ (e, c) :: post := by
  intro buf
  induction buf with
  | nil => intro h; simp at h
  | cons kc t ih =>
    intro h
    obtain ⟨k, c⟩ := kc
    by_cases hk : k = e
    · subst hk
      refine ⟨c, [], t, ?_, rfl⟩
      simp [bufRemove]
    · have he : e ∈ t.map Prod.fst := by
        simp only [List.map_cons, List.mem_cons] at h
        rcases h with h | h
        · exact absurd h.symm hk
        · exact h
      obtain ⟨c', pre, post, h1, h2⟩ := ih he
      refine ⟨c', (k, c) :: pre, post, ?_, by rw [h2]; rfl⟩
      simp [bufRemove, hk, h1]

theorem bufRemove_not_mem (e : Nat) :
    ∀ buf : List (Nat × Chunk), e ∉ buf.map Prod.fst →
      (bufRemove e buf).1 = none := by
  intro buf
  induction buf with
  | nil => intro h; rfl
  | cons kc t ih =>
    intro h
    obtain ⟨k, c⟩ := kc
    simp only [List.map_cons, List.mem_cons, not_or] at h
    obtain ⟨h1, h2⟩ := h
    simp only [bufRemove]
    rw [if_neg (show ¬k = e from fun hh => h1 hh.symm)]
    exact ih h2

theorem bufInsert_perm (k : Nat) (c : Chunk) :
    ∀ buf : List (Nat × Chunk), k ∉ buf.map Prod.fst →
      List.Perm (bufInsert k c buf) ((k, c) :: buf) := by
  intro buf
  induction buf with
  | nil => intro h; exact List.Perm.refl _
  | cons kc t ih =>
    intro h
    obtain ⟨k', c'⟩ := kc
    simp only [List.map_cons, List.mem_cons, not_or] at h
    obtain ⟨h1, h2⟩ := h
    simp only [bufInsert]
    by_cases hlt : k < k'
    · rw [if_pos hlt]
    · rw [if_neg hlt, if_neg h1]
      have hp1 : List.Perm ((k', c') :: bufInsert k c t) ((k', c') :: (k, c) :: t) :=
        (ih h2).cons _
      have hp2 : List.Perm ((k', c') :: (k, c) :: t) ((k, c) :: (k', c') :: t) :=
        List.Perm.swap _ _ _
      exact hp1.trans hp2

theorem bufInsert_mem (k : Nat) (c : Chunk) :
    ∀ buf kv, kv ∈ bufInsert k c buf → kv = (k, c) ∨ kv ∈ buf := by
  intro buf
  induction buf with
  | nil =>
    intro kv h
    simp only [bufInsert, List.mem_cons, List.not_mem_nil, or_false] at h
    exact Or.inl h
  | cons kc t ih =>
    intro kv h
    obtain ⟨k', c'⟩ := kc
    simp only [bufInsert] at h
    by_cases hlt : k < k'
    · rw [if_pos hlt] at h
      rcases List.mem_cons.mp h with h' | h'
      · exact Or.inl h'
      · exact Or.inr h'
    · rw [if_neg hlt] at h
      by_cases heq : k = k'
      · rw [if_pos heq] at h
        rcases List.mem_cons.mp h with h' | h'
        · exact Or.inl h'
        · exact Or.inr (List.mem_cons_of_mem _ h')
      · rw [if_neg heq] at h
        rcases List.mem_cons.mp h with h' | h'
        · exact Or.inr (by rw [h']; exact List.mem_cons_self _ _)
        · rcases ih kv h' with h2 | h2
          · exact Or.inl h2
          · exact Or.inr (List.mem_cons_of_mem _ h2)

theorem runV1_contig :
    ∀ n (input : List Chunk) (buf : List (Nat × Chunk)) (e m : Nat),
      2 * input.length + buf.length ≤ n →
      e + m ≤ 1048576 →
      (∀ kc ∈ buf, kc.2.pfx = kc.1) →
      List.Perm (buf.map Prod.fst ++ input.map Chunk.pfx) (List.range' e m) →
      ∃ out : List Chunk,
        runOrderedV1 (some e) buf (input.map Except.ok) = out.map Except.ok ∧
        out.map Chunk.pfx = List.range' e m ∧
        List.Perm out (buf.map Prod.snd ++ input) := by
  intro n
  induction n with
  | zero =>
    intro input buf e m hn hle hbuf hperm
    have hi : input = [] := by
      cases input with
      | nil => rfl
      | cons a t => simp at hn
    have hb : buf = [] := by
      cases buf with
      | nil => rfl
      | cons a t => rw [hi] at hn; simp at hn
    subst hi
    subst hb
    have hm : m = 0 := by
      have hlen := hperm.length_eq
      simpa using hlen.symm
    subst hm
    exact ⟨[], runV1_empty (some e), rfl, List.Perm.refl _⟩
  | succ n ih =>
    intro input buf e m hn hle hbuf hperm
    have hM : pfxMaxVal = 1048575 := rfl
    have hnd : (buf.map Prod.fst ++ input.map Chunk.pfx).Nodup :=
      hperm.nodup_iff.mpr (List.nodup_range' e m 1 Nat.one_pos)
    by_cases hm : m = 0
    · subst hm
      have h0 : buf.map Prod.fst ++ input.map Chunk.pfx = [] := List.Perm.eq_nil hperm
      have hb : buf = [] := by
        cases buf with
        | nil => rfl
        | cons a t => simp at h0
      have hi : input = [] := by
        cases input with
        | nil => rfl
        | cons a t => rw [hb] at h0; simp at h0
      subst hb
      subst hi
      exact ⟨[], runV1_empty (some e), rfl, List.Perm.refl _⟩
    · obtain ⟨m', rfl⟩ : ∃ m'', m = m'' + 1 := ⟨m - 1, by omega⟩
      have hrange : List.range' e (m' + 1) = e :: List.range' (e + 1) m' :=
        List.range'_succ e m' 1
      have he_mem : e ∈ buf.map Prod.fst ++ input.map Chunk.pfx :=
        hperm.mem_iff.mpr (List.mem_range'_1.mpr ⟨le_refl e, by omega⟩)
      rcases List.mem_append.mp he_mem with hbm | him
      · -- the expected prefix sits in the buffer: pop it
        obtain ⟨c, pre, post, hrem, hdecomp⟩ := bufRemove_mem e buf hbm
        have hcpfx : c.pfx = e := by
          refine hbuf (e, c) ?_
          rw [hdecomp]
          exact List.mem_append.mpr (Or.inr (List.mem_cons_self _ _))
        rw [runV1_buf_hit e buf (input.map Except.ok) c (pre ++ post) hrem]
        have hkeys : buf.map Prod.fst =
            pre.map Prod.fst ++ e :: post.map Prod.fst := by
          rw [hdecomp]
          simp
        have h1 : List.Perm
            (e :: ((pre ++ post).map Prod.fst ++ input.map Chunk.pfx))
            (buf.map Prod.fst ++ input.map Chunk.pfx) := by
          rw [hkeys, List.append_assoc, List.cons_append, List.map_append,
            List.append_assoc]
          exact List.perm_middle.symm
        have h2 := (h1.trans hperm)
        rw [hrange] at h2
        have hperm' := h2.cons_inv
        have hbuf' : ∀ kc ∈ pre ++ post, kc.2.pfx = kc.1 := by
          intro kc hkc
          refine hbuf kc ?_
          rw [hdecomp]
          rcases List.mem_append.mp hkc with h' | h'
          · exact List.mem_append.mpr (Or.inl h')
          · exact List.mem_append.mpr (Or.inr (List.mem_cons_of_mem _ h'))
        have hlendec : buf.length = (pre ++ post).length + 1 :=
          bufRemove_some_length e buf c (pre ++ post) hrem
        have hsnd : buf.map Prod.snd =
            pre.map Prod.snd ++ c :: post.map Prod.snd := by
          rw [hdecomp]
          simp
        by_cases hm' : m' = 0
        · subst hm'
          have h0 : (pre ++ post).map Prod.fst ++ input.map Chunk.pfx = [] :=
            List.Perm.eq_nil hperm'
          have hpp : pre ++ post = [] := by
            cases hx : pre ++ post with
            | nil => rfl
            | cons a t => rw [hx] at h0; simp at h0
          have hi : input = [] := by
            cases input with
            | nil => rfl
            | cons a t => rw [hpp] at h0; simp at h0
          subst hi
          rw [hpp]
          simp only [List.map_nil]
          rw [runV1_empty (pfxNext e)]
          refine ⟨[c], rfl, ?_, ?_⟩
          · rw [hrange]
            simp [hcpfx]
          · rw [hsnd]
            have : pre = [] ∧ post = [] := List.append_eq_nil.mp hpp
            rw [this.1, this.2]
            simp
        · have hnext : pfxNext e = some (e + 1) := pfxNext_eq e (by omega)
          rw [hnext]
          obtain ⟨out', ho1, ho2, ho3⟩ := ih input (pre ++ post) (e + 1) m'
            (by omega) (by omega) hbuf' hperm'
          refine ⟨c :: out', ?_, ?_, ?_⟩
          · rw [ho1]
            rfl
          · rw [hrange]
            simp [hcpfx, ho2]
          · have hstep : List.Perm (c :: ((pre ++ post).map Prod.snd ++ input))
                (buf.map Prod.snd ++ input) := by
              rw [hsnd, List.append_assoc, List.cons_append, List.map_append,
                List.append_assoc]
              exact List.perm_middle.symm
            exact (ho3.cons c).trans hstep
      · -- the expected prefix is still upstream
        have hdisj := (List.nodup_append.mp hnd).2.2
        have hnotbuf : e ∉ buf.map Prod.fst := fun hh => hdisj hh him
        have hrem0 : (bufRemove e buf).1 = none := bufRemove_not_mem e buf hnotbuf
        cases input with
        | nil => simp at him
        | cons c0 rest =>
          simp only [List.map_cons] at hperm ⊢
          by_cases hc0 : c0.pfx = e
          · rw [runV1_emit e buf c0 (rest.map Except.ok) hrem0 hc0]
            have h1 : List.Perm (e :: (buf.map Prod.fst ++ rest.map Chunk.pfx))
                (buf.map Prod.fst ++ c0.pfx :: rest.map Chunk.pfx) := by
              rw [hc0]
              exact List.perm_middle.symm
            have h2 := h1.trans hperm
            rw [hrange] at h2
            have hperm' := h2.cons_inv
            by_cases hm' : m' = 0
            · subst hm'
              have h0 : buf.map Prod.fst ++ rest.map Chunk.pfx = [] :=
                List.Perm.eq_nil hperm'
              have hb : buf = [] := by
                cases buf with
                | nil => rfl
                | cons a t => simp at h0
              have hr : rest = [] := by
                cases rest with
                | nil => rfl
                | cons a t => rw [hb] at h0; simp at h0
              subst hb
              subst hr
              simp only [List.map_nil]
              rw [runV1_empty (pfxNext e)]
              refine ⟨[c0], rfl, ?_, List.Perm.refl _⟩
              rw [hrange]
              simp [hc0]
            · have hnext : pfxNext e = some (e + 1) := pfxNext_eq e (by omega)
              rw [hnext]
              obtain ⟨out', ho1, ho2, ho3⟩ := ih rest buf (e + 1) m'
                (by simp at hn; omega) (by omega) hbuf hperm'
              refine ⟨c0 :: out', ?_, ?_, ?_⟩
              · rw [ho1]
                rfl
              · rw [hrange]
                simp [hc0, ho2]
              · exact (ho3.cons c0).trans List.perm_middle.symm
          · rw [runV1_buffer e buf c0 (rest.map Except.ok) hrem0 hc0]
            have hc0mem : c0.pfx ∈ c0.pfx :: rest.map Chunk.pfx :=
              List.mem_cons_self _ _
            have hc0notbuf : c0.pfx ∉ buf.map Prod.fst := by
              intro hh
              exact hdisj hh (by simp)
            have hinsperm := bufInsert_perm c0.pfx c0 buf hc0notbuf
            have hbufI : ∀ kc ∈ bufInsert c0.pfx c0 buf, kc.2.pfx = kc.1 := by
              intro kc hkc
              rcases bufInsert_mem c0.pfx c0 buf kc hkc with h' | h'
              · rw [h']
              · exact hbuf kc h'
            have hkeyins : List.Perm ((bufInsert c0.pfx c0 buf).map Prod.fst)
                (c0.pfx :: buf.map Prod.fst) := by
              have := hinsperm.map Prod.fst
              simpa using this
            have hpermI : List.Perm
                ((bufInsert c0.pfx c0 buf).map Prod.fst ++ rest.map Chunk.pfx)
                (List.range' e (m' + 1)) := by
              have ha : List.Perm
                  ((bufInsert c0.pfx c0 buf).map Prod.fst ++ rest.map Chunk.pfx)
                  ((c0.pfx :: buf.map Prod.fst) ++ rest.map Chunk.pfx) :=
                hkeyins.append_right _
              have hb : List.Perm (c0.pfx :: (buf.map Prod.fst ++ rest.map Chunk.pfx))
                  (buf.map Prod.fst ++ c0.pfx :: rest.map Chunk.pfx) :=
                List.perm_middle.symm
              exact (ha.trans hb).trans hperm
            have hlenI := bufInsert_length c0.pfx c0 buf
            obtain ⟨out', ho1, ho2, ho3⟩ := ih rest (bufInsert c0.pfx c0 buf) e
              (m' + 1) (by simp at hn; omega) hle hbufI hpermI
            refine ⟨out', ho1, ho2, ?_⟩
            have hsndins : List.Perm ((bufInsert c0.pfx c0 buf).map Prod.snd)
                (c0 :: buf.map Prod.snd) := by
              have := hinsperm.map Prod.snd
              simpa using this
            have ha : List.Perm ((bufInsert c0.pfx c0 buf).map Prod.snd ++ rest)
                ((c0 :: buf.map Prod.snd) ++ rest) := hsndins.append_right _
            have hb : List.Perm (c0 :: (buf.map Prod.snd ++ rest))
                (buf.map Prod.snd ++ c0 :: rest) := List.perm_middle.symm
            exact ho3.trans (ha.trans hb)

theorem runV2_buf_hit (e : Nat) (buf : List (Nat × Chunk))
    (input : List (Except DlErr Chunk)) (c : Chunk) (buf' : List (Nat × Chunk))
    (h : bufRemove e buf = (some c, buf')) :
    runOrderedV2 (some e) buf input =
      (runOrderedV2 (pfxNext e) buf' input).map (fun t => .ok c :: t) := by
  rw [runOrderedV2.eq_def]
  simp only [h, Option.isSome_some, Option.get_some, dite_true]

theorem runV2_nil (e : Nat) (buf : List (Nat × Chunk))
    (h : (bufRemove e buf).1 = none) :
    runOrderedV2 (some e) buf [] = some [] := by
  rw [runOrderedV2.eq_def]
  simp only [h, Option.isSome_none, Bool.false_eq_true, dite_false]

theorem runV2_err (e : Nat) (buf : List (Nat × Chunk)) (d : DlErr)
    (rest : List (Except DlErr Chunk)) (h : (bufRemove e buf).1 = none) :
    runOrderedV2 (some e) buf (.error d :: rest) =
      (runOrderedV2 (some e) buf rest).map (fun t => .error d :: t) := by
  rw [runOrderedV2.eq_def]
  simp only [h, Option.isSome_none, Bool.false_eq_true, dite_false]

theorem runV2_emit (e : Nat) (buf : List (Nat × Chunk)) (c : Chunk)
    (rest : List (Except DlErr Chunk)) (h : (bufRemove e buf).1 = none)
    (hc : c.pfx = e) :
    runOrderedV2 (some e) buf (.ok c :: rest) =
      (runOrderedV2 (pfxNext e) buf rest).map (fun t => .ok c :: t) := by
  rw [runOrderedV2.eq_def]
  simp only [h, Option.isSome_none, Bool.false_eq_true, dite_false, if_pos hc]

theorem runV2_buffer (e : Nat) (buf : List (Nat × Chunk)) (c : Chunk)
    (rest : List (Except DlErr Chunk)) (h : (bufRemove e buf).1 = none)
    (hc : c.pfx ≠ e) :
    runOrderedV2 (some e) buf (.ok c :: rest) =
      runOrderedV2 (some e) (bufInsert c.pfx c buf) rest := by
  rw [runOrderedV2.eq_def]
  simp only [h, Option.isSome_none, Bool.false_eq_true, dite_false, if_neg hc]

theorem runV2_none_nil (buf : List (Nat × Chunk)) :
    runOrderedV2 none buf [] = some [] := by
  rw [runOrderedV2.eq_def]

theorem runV2_none_err (buf : List (Nat × Chunk)) (d : DlErr)
    (rest : List (Except DlErr Chunk)) :
    runOrderedV2 none buf (.error d :: rest) =
      (runOrderedV2 none buf rest).map (fun t => .error d :: t) := by
  rw [runOrderedV2.eq_def]

theorem runV2_none_ok (buf : List (Nat × Chunk)) (c : Chunk)
    (rest : List (Except DlErr Chunk)) :
    runOrderedV2 none buf (.ok c :: rest) = none := by
  rw [runOrderedV2.eq_def]

/-- The wrapping the `ordered_stream.rs` copy applies to upstream errors
(`OrderedStreamError::DownloadError`); the `lib.rs` copy passes them raw. -/
def wrapErr : Except DlErr Chunk → Except OSErr Chunk
  | .ok c => .ok c
  | .error d => .error (.downloadError d)

theorem runV1_V2_agree :
    ∀ n (input : List (Except DlErr Chunk)) (buf : List (Nat × Chunk))
      (exp : Option Nat), 2 * input.length + buf.length ≤ n →
      (∀ out, runOrderedV2 exp buf input = some out →
        runOrderedV1 exp buf input = out.map wrapErr) ∧
      (runOrderedV2 exp buf input = none →
        Except.error OSErr.discontinuous ∈ runOrderedV1 exp buf input) := by
  intro n
  induction n with
  | zero =>
    intro input buf exp hn
    have hi : input = [] := by
      cases input with
      | nil => rfl
      | cons a t => simp at hn
    have hb : buf = [] := by
      cases buf with
      | nil => rfl
      | cons a t => rw [hi] at hn; simp at hn
    subst hi
    subst hb
    have hv2 : runOrderedV2 exp [] [] = some [] := by
      cases exp with
      | none => exact runV2_none_nil []
      | some e => exact runV2_nil e [] rfl
    constructor
    · intro out h
      rw [hv2] at h
      injection h with h'
      rw [← h', runV1_empty]
      rfl
    · intro h
      rw [hv2] at h
      exact Option.noConfusion h
  | succ n ih =>
    intro input buf exp hn
    cases exp with
    | none =>
      cases input with
      | nil =>
        constructor
        · intro out h
          rw [runV2_none_nil] at h
          injection h with h'
          rw [← h', runV1_none_nil]
          rfl
        · intro h
          rw [runV2_none_nil] at h
          exact Option.noConfusion h
      | cons i rest =>
        cases i with
        | error d =>
          have hih := ih rest buf none (by simp at hn ⊢; omega)
          constructor
          · intro out h
            rw [runV2_none_err] at h
            rcases ho : runOrderedV2 none buf rest with _ | t
            · rw [ho] at h
              exact Option.noConfusion h
            · rw [ho] at h
              injection h with h'
              rw [← h', runV1_none_err, hih.1 t ho]
              rfl
          · intro h
            rcases ho : runOrderedV2 none buf rest with _ | t
            · rw [runV1_none_err]
              exact List.mem_cons_of_mem _ (hih.2 ho)
            · rw [runV2_none_err, ho] at h
              exact Option.noConfusion h
        | ok c =>
          constructor
          · intro out h
            rw [runV2_none_ok] at h
            exact Option.noConfusion h
          · intro h
            rw [runV1_none_ok]
            exact List.mem_cons_self _ _
    | some e =>
      rcases hrem : bufRemove e buf with ⟨o, buf'⟩
      cases o with
      | some c =>
        have hlen := bufRemove_some_length e buf c buf' hrem
        have hih := ih input buf' (pfxNext e) (by omega)
        constructor
        · intro out h
          rw [runV2_buf_hit e buf input c buf' hrem] at h
          rcases ho : runOrderedV2 (pfxNext e) buf' input with _ | t
          · rw [ho] at h
            exact Option.noConfusion h
          · rw [ho] at h
            injection h with h'
            rw [← h', runV1_buf_hit e buf input c buf' hrem, hih.1 t ho]
            rfl
        · intro h
          rcases ho : runOrderedV2 (pfxNext e) buf' input with _ | t
          · rw [runV1_buf_hit e buf input c buf' hrem]
            exact List.mem_cons_of_mem _ (hih.2 ho)
          · rw [runV2_buf_hit e buf input c buf' hrem, ho] at h
            exact Option.noConfusion h
      | none =>
        have hrem1 : (bufRemove e buf).1 = none := by rw [hrem]
        cases input with
        | nil =>
          constructor
          · intro out h
            rw [runV2_nil e buf hrem1] at h
            injection h with h'
            rw [← h', runV1_nil e buf hrem1]
            rfl
          · intro h
            rw [runV2_nil e buf hrem1] at h
            exact Option.noConfusion h
        | cons i rest =>
          cases i with
          | error d =>
            have hih := ih rest buf (some e) (by simp at hn ⊢; omega)
            constructor
            · intro out h
              rw [runV2_err e buf d rest hrem1] at h
              rcases ho : runOrderedV2 (some e) buf rest with _ | t
              · rw [ho] at h
                exact Option.noConfusion h
              · rw [ho] at h
                injection h with h'
                rw [← h', runV1_err e buf d rest hrem1, hih.1 t ho]
                rfl
            · intro h
              rcases ho : runOrderedV2 (some e) buf rest with _ | t
              · rw [runV1_err e buf d rest hrem1]
                exact List.mem_cons_of_mem _ (hih.2 ho)
              · rw [runV2_err e buf d rest hrem1, ho] at h
                exact Option.noConfusion h
          | ok c =>
            by_cases hc : c.pfx = e
            · have hih := ih rest buf (pfxNext e) (by simp at hn ⊢; omega)
              constructor
              · intro out h
                rw [runV2_emit e buf c rest hrem1 hc] at h
                rcases ho : runOrderedV2 (pfxNext e) buf rest with _ | t
                · rw [ho] at h
                  exact Option.noConfusion h
                · rw [ho] at h
                  injection h with h'
                  rw [← h', runV1_emit e buf c rest hrem1 hc, hih.1 t ho]
                  rfl
              · intro h
                rcases ho : runOrderedV2 (pfxNext e) buf rest with _ | t
                · rw [runV1_emit e buf c rest hrem1 hc]
                  exact List.mem_cons_of_mem _ (hih.2 ho)
                · rw [runV2_emit e buf c rest hrem1 hc, ho] at h
                  exact Option.noConfusion h
            · have hins := bufInsert_length c.pfx c buf
              have hih := ih rest (bufInsert c.pfx c buf) (some e)
                (by simp at hn ⊢; omega)
              constructor
              · intro out h
                rw [runV2_buffer e buf c rest hrem1 hc] at h
                rw [runV1_buffer e buf c rest hrem1 hc]
                exact hih.1 out h
              · intro h
                rw [runV2_buffer e buf c rest hrem1 hc] at h
                rw [runV1_buffer e buf c rest hrem1 hc]
                exact hih.2 h

/-- Claim C2: for every upstream permutation of a contiguous prefix range
starting at `first` (all prefixes valid), `OrderedStream` emits exactly those
chunks in strictly ascending prefix order, and the number of emitted items
equals the number of upstream chunks. -/
theorem claim_C2_ordered_perm (input : List Chunk) (first n : Nat)
    (hle : first + n ≤ 1048576)
    (hperm : List.Perm (input.map Chunk.pfx) (List.range' first n)) :
    ∃ out : List Chunk,
      runOrderedV1 (some first) [] (input.map Except.ok) = out.map Except.ok ∧
      out.map Chunk.pfx = List.range' first n ∧
      List.Perm out input ∧
      out.length = input.length := by
  obtain ⟨out, h1, h2, h3⟩ := runV1_contig (2 * input.length) input [] first n
    (by simp) hle (by simp) (by simpa using hperm)
  have h3' : List.Perm out input := by simpa using h3
  exact ⟨out, h1, h2, h3', h3'.length_eq⟩

/-- Witness for C2: the spec's reorder scenario on prefixes `[0, 2, 1]`. -/
theorem claim_C2_witness :
    ∃ out : List Chunk,
      runOrderedV1 (some 0) []
          (([Chunk.mk 0 [], Chunk.mk 2 [], Chunk.mk 1 []] : List Chunk).map
            Except.ok) = out.map Except.ok ∧
      out.map Chunk.pfx = List.range' 0 3 ∧
      List.Perm out [Chunk.mk 0 [], Chunk.mk 2 [], Chunk.mk 1 []] ∧
      out.length = ([Chunk.mk 0 [], Chunk.mk 2 [], Chunk.mk 1 []] : List Chunk).length :=
  claim_C2_ordered_perm [Chunk.mk 0 [], Chunk.mk 2 [], Chunk.mk 1 []] 0 3
    (by decide) (by decide)

/-- Claim C3 counterexample: with `first_expected = 0`, the single-chunk
upstream `{prefix 1}` is not contiguous from 0 yet the stream ends silently
(no `Discontinuous` is ever yielded); and a chunk whose prefix is strictly
below `expected` (the second `prefix 0` chunk) is buffered, not faulted. -/
theorem claim_C3_counterexample :
    runOrderedV1 (some 0) [] [Except.ok (Chunk.mk 1 [])] = [] ∧
    runOrderedV1 (some 0) []
        [Except.ok (Chunk.mk 0 []), Except.ok (Chunk.mk 0 [])] =
      [Except.ok (Chunk.mk 0 [])] := by
  constructor
  · rw [runV1_buffer 0 [] (Chunk.mk 1 []) [] rfl (by decide)]
    exact runV1_nil 0 _ rfl
  · rw [runV1_emit 0 [] (Chunk.mk 0 []) [Except.ok (Chunk.mk 0 [])] rfl rfl]
    rw [show pfxNext 0 = some 1 from rfl]
    rw [runV1_buffer 1 [] (Chunk.mk 0 []) [] rfl (by decide)]
    rw [runV1_nil 1 (bufInsert (Chunk.mk 0 []).pfx (Chunk.mk 0 []) []) rfl]

/-- Claim C3 (amended): a chunk whose prefix differs from `expected` —
including one strictly below it — is inserted into the buffer without any
error; `Discontinuous` is yielded exactly when a chunk arrives while
`expected_prefix` is `none` (only possible after the maximum prefix was
emitted); a non-contiguous set that never drives `expected` past the maximum
makes the stream end silently with a non-empty buffer. -/
theorem claim_C3_amended (buf : List (Nat × Chunk)) (c : Chunk)
    (rest : List (Except DlErr Chunk)) :
    runOrderedV1 none buf (.ok c :: rest) =
      .error .discontinuous :: runOrderedV1 none buf rest ∧
    (∀ e : Nat, (bufRemove e buf).1 = none → c.pfx ≠ e →
      runOrderedV1 (some e) buf (.ok c :: rest) =
        runOrderedV1 (some e) (bufInsert c.pfx c buf) rest) :=
  ⟨runV1_none_ok buf c rest, fun e h1 h2 => runV1_buffer e buf c rest h1 h2⟩

/-- Witness for the amended C3 at a concrete buffer, chunk and expected
prefix. -/
theorem claim_C3_witness :
    (runOrderedV1 none [] [Except.ok (Chunk.mk 5 [])] =
      .error .discontinuous :: runOrderedV1 none [] []) ∧
    runOrderedV1 (some 3) [] [Except.ok (Chunk.mk 5 [])] =
      runOrderedV1 (some 3) (bufInsert (Chunk.mk 5 []).pfx (Chunk.mk 5 []) []) [] :=
  ⟨(claim_C3_amended [] (Chunk.mk 5 []) []).1,
   (claim_C3_amended [] (Chunk.mk 5 []) []).2 3 rfl (by decide)⟩

/-- Claim C10 counterexample: fed the same upstream (the maximum prefix, then
one more chunk) with the same first expected prefix, the `ordered_stream.rs`
implementation emits the chunk and then the `Discontinuous` error, while the
`lib.rs` implementation panics (modelled as `none`): the two are not
equivalent, and one panics exactly where the other reports an error. -/
theorem claim_C10_counterexample :
    runOrderedV1 (some 1048575) []
        [Except.ok (Chunk.mk 1048575 []), Except.ok (Chunk.mk 0 [])] =
      [Except.ok (Chunk.mk 1048575 []), Except.error OSErr.discontinuous] ∧
    runOrderedV2 (some 1048575) []
        [Except.ok (Chunk.mk 1048575 []), Except.ok (Chunk.mk 0 [])] = none := by
  constructor
  · rw [runV1_emit 1048575 [] (Chunk.mk 1048575 []) [Except.ok (Chunk.mk 0 [])]
      rfl rfl]
    rw [show pfxNext 1048575 = none from rfl]
    rw [runV1_none_ok, runV1_none_nil]
  · rw [runV2_emit 1048575 [] (Chunk.mk 1048575 []) [Except.ok (Chunk.mk 0 [])]
      rfl rfl]
    rw [show pfxNext 1048575 = none from rfl]
    rw [runV2_none_ok]
    rfl

/-- Claim C10 (amended): whenever the `lib.rs` implementation completes
without panicking, the `ordered_stream.rs` implementation emits exactly the
same sequence up to wrapping upstream errors in `OrderedStreamError`;
where the `lib.rs` copy panics (a chunk arriving while `expected_prefix` is
`none`), the `ordered_stream.rs` copy yields `Discontinuous` instead. -/
theorem claim_C10_amended (input : List (Except DlErr Chunk))
    (buf : List (Nat × Chunk)) (exp : Option Nat) :
    (∀ out, runOrderedV2 exp buf input = some out →
      runOrderedV1 exp buf input = out.map wrapErr) ∧
    (runOrderedV2 exp buf input = none →
      Except.error OSErr.discontinuous ∈ runOrderedV1 exp buf input) :=
  runV1_V2_agree (2 * input.length + buf.length) input buf exp (le_refl _)

/-- Witness for the amended C10: one run where the second implementation
completes (outputs agree) and one where it panics (the first yields
`Discontinuous`). -/
theorem claim_C10_witness :
    runOrderedV1 (some 7) [] [Except.ok (Chunk.mk 7 [])] =
      ([Except.ok (Chunk.mk 7 [])] : List (Except DlErr Chunk)).map wrapErr ∧
    Except.error OSErr.discontinuous ∈
      runOrderedV1 (some 1048575) []
        [Except.ok (Chunk.mk 1048575 []), Except.ok (Chunk.mk 0 [])] := by
  constructor
  · refine (claim_C10_amended [Except.ok (Chunk.mk 7 [])] [] (some 7)).1
      [Except.ok (Chunk.mk 7 [])] ?_
    rw [runV2_emit 7 [] (Chunk.mk 7 []) [] rfl rfl]
    rw [show pfxNext 7 = some 8 from rfl]
    rw [runV2_nil 8 [] rfl]
    rfl
  · refine (claim_C10_amended
      [Except.ok (Chunk.mk 1048575 []), Except.ok (Chunk.mk 0 [])] []
      (some 1048575)).2 ?_
    rw [runV2_emit 1048575 [] (Chunk.mk 1048575 []) [Except.ok (Chunk.mk 0 [])]
      rfl rfl]
    rw [show pfxNext 1048575 = none from rfl]
    rw [runV2_none_ok]
    rfl
